import Mathlib

/-
  Verification of the spool generational object pool (src/pool.rs).

  Shallow embedding conventions:
  * `usize` fields are modelled as `Nat`.  Generations are incremented by
    `insert` only; the 2^64 wraparound of release-mode Rust is out of reach of
    any modelled trace and is not modelled.  `count -= 1` runs only on success
    paths, where the slot being emptied is occupied.
  * The backing `Vec<PoolEntry<T>>` is a `List (PoolEntry T)`;
    `ObjectPool::new` fills it to length `capacity` with `resize_with`, and no
    operation ever changes its length, so `Vec::capacity` (the source of
    `ObjectPool::capacity`) coincides with the list length.
  * The `free` vector is used by the source purely as a stack
    (`Vec::push` / `Vec::pop` at the tail).  We represent it with the stack
    top at the HEAD of the list: `push i` is `i :: free`, `pop` takes the head.
  * `unsafe get_unchecked(_mut)` index accesses are totalized with
    `List.getD` / `List.set` (out-of-range reads give a default entry,
    out-of-range writes are dropped); every access in the source sits behind
    the `index < capacity` guard or uses an index from `free` / `next`, which
    the reachability invariant keeps in bounds.
  * References `&T` / `&mut T` are modelled by the value they expose; `take`
    returns the updated pool together with the moved-out value; `insert`
    returns `none` where the source panics on capacity exhaustion
    (an aborted program performs no further operations, so modelling the
    failed insert as a no-op in traces only adds behaviours).
-/

namespace Spool

/-- `PoolKey` from src/pool.rs: an (index, generation) handle. -/
structure PoolKey where
  index : Nat
  generation : Nat
deriving DecidableEq

/-- `PoolEntry<T>` from src/pool.rs: a slot holding a generation counter and
an optional value. -/
structure PoolEntry (T : Type) where
  generation : Nat
  data : Option T
deriving DecidableEq

namespace PoolEntry

/-- `PoolEntry::new`. -/
def new (T : Type) : PoolEntry T :=
  { generation := 0, data := none }

/-- `PoolEntry::set`: stores the value, increments the generation, and
returns the new generation (here: the updated entry paired with it). -/
def set (e : PoolEntry T) (value : T) : PoolEntry T × Nat :=
  let g := e.generation + 1
  ({ generation := g, data := some value }, g)

/-- `PoolEntry::get` (the value behind the returned reference). -/
def get (e : PoolEntry T) : Option T :=
  e.data

/-- `PoolEntry::get_mut` (the value behind the returned reference). -/
def get_mut (e : PoolEntry T) : Option T :=
  e.data

/-- `PoolEntry::clear`. -/
def clear (e : PoolEntry T) : PoolEntry T :=
  { generation := e.generation, data := none }

/-- `PoolEntry::is_empty`. -/
def is_empty (e : PoolEntry T) : Bool :=
  e.data.isNone

/-- `PoolEntry::take` (`Option::take`): the emptied entry and the old value. -/
def take (e : PoolEntry T) : PoolEntry T × Option T :=
  ({ generation := e.generation, data := none }, e.data)

end PoolEntry

/-- `ObjectPool<T>` from src/pool.rs. -/
structure ObjectPool (T : Type) where
  count : Nat
  next : Nat
  free : List Nat
  data : List (PoolEntry T)
deriving DecidableEq

namespace ObjectPool

/-- `ObjectPool::new(capacity)`. -/
def new (T : Type) (capacity : Nat) : ObjectPool T :=
  { count := 0, next := 0, free := [],
    data := List.replicate capacity (PoolEntry.new T) }

/-- `ObjectPool::capacity` (`Vec::capacity` of the backing vector, which the
source allocates and fills to exactly the configured capacity). -/
def capacity (p : ObjectPool T) : Nat :=
  p.data.length

/-- The slot at index `i` (totalized `get_unchecked`). -/
def entryAt (p : ObjectPool T) (i : Nat) : PoolEntry T :=
  p.data.getD i (PoolEntry.new T)

/-- `ObjectPool::insert`: pop the free stack, else use `next`, else panic
(modelled as `none`). -/
def insert (p : ObjectPool T) (value : T) : Option (ObjectPool T × PoolKey) :=
  match p.free with
  | i :: rest =>
      let r := (p.entryAt i).set value
      some ({ count := p.count + 1, next := p.next, free := rest,
              data := p.data.set i r.1 },
            { index := i, generation := r.2 })
  | [] =>
      if p.next < p.capacity then
        let r := (p.entryAt p.next).set value
        some ({ count := p.count + 1, next := p.next + 1, free := [],
                data := p.data.set p.next r.1 },
              { index := p.next, generation := r.2 })
      else
        none

/-- `ObjectPool::get`. -/
def get (p : ObjectPool T) (key : PoolKey) : Option T :=
  if key.index ≥ p.capacity then none
  else
    let entry := p.entryAt key.index
    if entry.generation ≠ key.generation then none else entry.get

/-- `ObjectPool::get_mut` (the value behind the returned reference). -/
def get_mut (p : ObjectPool T) (key : PoolKey) : Option T :=
  if key.index ≥ p.capacity then none
  else
    let entry := p.entryAt key.index
    if entry.generation ≠ key.generation then none else entry.get_mut

/-- `ObjectPool::take`: the updated pool and the extracted value. -/
def take (p : ObjectPool T) (key : PoolKey) : ObjectPool T × Option T :=
  if key.index ≥ p.capacity then (p, none)
  else
    let entry := p.entryAt key.index
    if entry.generation ≠ key.generation ∨ entry.is_empty then (p, none)
    else
      let r := entry.take
      ({ count := p.count - 1, next := p.next, free := key.index :: p.free,
         data := p.data.set key.index r.1 },
       r.2)

/-- `ObjectPool::delete`. -/
def delete (p : ObjectPool T) (key : PoolKey) : ObjectPool T :=
  if key.index ≥ p.capacity then p
  else
    let entry := p.entryAt key.index
    if entry.generation ≠ key.generation ∨ entry.is_empty then p
    else
      { count := p.count - 1, next := p.next, free := key.index :: p.free,
        data := p.data.set key.index entry.clear }

/-- `ObjectPool::clear`. -/
def clear (p : ObjectPool T) : ObjectPool T :=
  { count := 0, next := 0, free := [],
    data := p.data.map PoolEntry.clear }

/-- `ObjectPool::iter`, collected into the list of visited values
(`data.iter().filter_map(|e| e.get())`). -/
def iter (p : ObjectPool T) : List T :=
  p.data.filterMap PoolEntry.get

end ObjectPool

/-- A public mutating operation applied to the pool (`get` / `get_mut` do not
change the pool and are queried directly in the theorems). -/
inductive Op (T : Type) where
  | ins (v : T)
  | tak (k : PoolKey)
  | del (k : PoolKey)
  | clr
deriving DecidableEq

/-- One public operation.  A capacity-exhausted `insert` panics in the
source, aborting the trace; modelling it as a no-op only adds behaviours. -/
def step (p : ObjectPool T) : Op T → ObjectPool T
  | .ins v =>
      match p.insert v with
      | some (p', _) => p'
      | none => p
  | .tak k => (p.take k).1
  | .del k => p.delete k
  | .clr => p.clear

/-- Run a sequence of public operations. -/
def run (p : ObjectPool T) (ops : List (Op T)) : ObjectPool T :=
  ops.foldl step p

/-- Run a sequence of public operations, also collecting every handle
returned by a successful insertion, in order. -/
def stepEmit (s : ObjectPool T × List PoolKey) (op : Op T) :
    ObjectPool T × List PoolKey :=
  match op with
  | .ins v =>
      match s.1.insert v with
      | some (p', k) => (p', s.2 ++ [k])
      | none => s
  | _ => (step s.1 op, s.2)

def runEmit (p : ObjectPool T) (ops : List (Op T)) :
    ObjectPool T × List PoolKey :=
  ops.foldl stepEmit (p, [])

/-- The structural invariant every reachable pool state satisfies
(spec.md section 3, restricted to the parts the code maintains). -/
structure WF (p : ObjectPool T) : Prop where
  next_le : p.next ≤ p.capacity
  free_lt : ∀ i ∈ p.free, i < p.next
  free_empty : ∀ i ∈ p.free, (p.entryAt i).data = none
  free_nodup : p.free.Nodup
  high_empty : ∀ i, p.next ≤ i → (p.entryAt i).data = none
  count_eq : p.count = p.data.countP (fun e => e.data.isSome)

/-- The slots at or above the high-water mark still carry generation 0.
This holds from construction until the first `clear`. -/
def FreshHigh (p : ObjectPool T) : Prop :=
  ∀ i, p.next ≤ i → (p.entryAt i).generation = 0

/-- Handle `h` is permanently dead: its slot either moved past its
generation, or sits at its generation with no value. -/
def Invalidated (p : ObjectPool T) (h : PoolKey) : Prop :=
  h.index < p.capacity ∧
    (h.generation < (p.entryAt h.index).generation ∨
      ((p.entryAt h.index).generation = h.generation ∧
        (p.entryAt h.index).data = none))

/-- Handle `h` is live and addresses the value `v`. -/
def Live (p : ObjectPool T) (h : PoolKey) (v : T) : Prop :=
  h.index < p.capacity ∧
    (p.entryAt h.index).generation = h.generation ∧
    (p.entryAt h.index).data = some v

/-- Invariant tying the handles emitted so far to the pool state: every
emitted handle is in range and no newer than its slot's generation. -/
def EmitInv (s : ObjectPool T × List PoolKey) : Prop :=
  s.2.Nodup ∧
    ∀ k ∈ s.2, k.index < s.1.capacity ∧
      k.generation ≤ (s.1.entryAt k.index).generation

theorem getD_set_self {α : Type _} (l : List α) (i : Nat) (a d : α) (h : i < l.length) :
    (l.set i a).getD i d = a := by
  simp [List.getD, List.getElem?_set_eq_of_lt, h]

theorem getD_set_ne {α : Type _} (l : List α) {i j : Nat} (a d : α) (h : i ≠ j) :
    (l.set i a).getD j d = l.getD j d := by
  simp [List.getD, List.getElem?_set_ne h]

theorem getD_of_len_le {α : Type _} (l : List α) (i : Nat) (d : α) (h : l.length ≤ i) :
    l.getD i d = d := by
  simp [List.getD, List.getElem?_eq_none h]

theorem getD_map {α β : Type _} (f : α → β) (l : List α) (i : Nat) (d : α) :
    (l.map f).getD i (f d) = f (l.getD i d) := by
  rcases lt_or_ge i l.length with h | h
  · simp [List.getD, List.getElem?_eq_getElem, h]
  · rw [getD_of_len_le _ _ _ (by simpa using h), getD_of_len_le _ _ _ h]

theorem countP_set {α : Type _} (f : α → Bool) (l : List α) (i : Nat) (a d : α)
    (h : i < l.length) :
    (l.set i a).countP f + (if f (l.getD i d) then 1 else 0)
      = l.countP f + (if f a then 1 else 0) := by
  induction l generalizing i with
  | nil => simp at h
  | cons x xs ih =>
    cases i with
    | zero =>
      have hset : (x :: xs).set 0 a = a :: xs := rfl
      rw [hset, List.getD_cons_zero, List.countP_cons, List.countP_cons]
      omega
    | succ n =>
      have hn : n < xs.length := by simpa using h
      have hih := ih n hn
      have hset : (x :: xs).set (n+1) a = x :: xs.set n a := rfl
      rw [hset, List.getD_cons_succ, List.countP_cons, List.countP_cons]
      omega

theorem length_filterMap_eq_countP {α β : Type _} (g : α → Option β) (l : List α) :
    (l.filterMap g).length = l.countP (fun a => (g a).isSome) := by
  induction l with
  | nil => rfl
  | cons x xs ih =>
    cases hx : g x <;> simp [List.filterMap_cons, hx, List.countP_cons, ih]

theorem filterMap_eq_range_getD {α β : Type _} (g : α → Option β) (d : α) (l : List α) :
    l.filterMap g = (List.range l.length).filterMap (fun i => g (l.getD i d)) := by
  induction l with
  | nil => rfl
  | cons x xs ih =>
    rw [List.length_cons, List.range_succ_eq_map]
    simp only [List.filterMap_cons, List.filterMap_map, Function.comp_def,
      List.getD_cons_succ, List.getD_cons_zero]
    rw [← ih]

end Spool

namespace Spool

namespace ObjectPool

theorem is_empty_iff {T : Type} (e : PoolEntry T) : e.is_empty = true ↔ e.data = none := by
  cases e with
  | mk g d => cases d <;> simp [PoolEntry.is_empty]

theorem insert_of_free_cons {T : Type} (p : ObjectPool T) (v : T) {i : Nat} {rest : List Nat}
    (hf : p.free = i :: rest) :
    p.insert v = some
      ({ count := p.count + 1, next := p.next, free := rest,
         data := p.data.set i ⟨(p.entryAt i).generation + 1, some v⟩ },
       ⟨i, (p.entryAt i).generation + 1⟩) := by
  unfold insert
  rw [hf]
  simp [PoolEntry.set]

theorem insert_of_next_lt {T : Type} (p : ObjectPool T) (v : T)
    (hf : p.free = []) (hlt : p.next < p.capacity) :
    p.insert v = some
      ({ count := p.count + 1, next := p.next + 1, free := [],
         data := p.data.set p.next ⟨(p.entryAt p.next).generation + 1, some v⟩ },
       ⟨p.next, (p.entryAt p.next).generation + 1⟩) := by
  unfold insert
  rw [hf]
  simp [hlt, PoolEntry.set]

theorem insert_of_full {T : Type} (p : ObjectPool T) (v : T)
    (hf : p.free = []) (hge : p.capacity ≤ p.next) :
    p.insert v = none := by
  unfold insert
  rw [hf]
  simp [Nat.not_lt.mpr hge]

theorem take_of_oob {T : Type} (p : ObjectPool T) (key : PoolKey)
    (h : p.capacity ≤ key.index) :
    p.take key = (p, none) := by
  unfold take
  rw [if_pos h]

theorem take_of_dead {T : Type} (p : ObjectPool T) (key : PoolKey)
    (hlt : key.index < p.capacity)
    (hbad : (p.entryAt key.index).generation ≠ key.generation
      ∨ (p.entryAt key.index).data = none) :
    p.take key = (p, none) := by
  unfold take
  rw [if_neg (Nat.not_le.mpr hlt), if_pos]
  rcases hbad with hb | hb
  · exact Or.inl hb
  · exact Or.inr ((is_empty_iff _).mpr hb)

theorem take_of_live {T : Type} (p : ObjectPool T) (key : PoolKey) (v : T)
    (hlt : key.index < p.capacity)
    (hgen : (p.entryAt key.index).generation = key.generation)
    (hdat : (p.entryAt key.index).data = some v) :
    p.take key =
      ({ count := p.count - 1, next := p.next, free := key.index :: p.free,
         data := p.data.set key.index ⟨(p.entryAt key.index).generation, none⟩ },
       some v) := by
  unfold take
  rw [if_neg (Nat.not_le.mpr hlt), if_neg]
  · simp [PoolEntry.take, hdat]
  · rintro (hb | hb)
    · exact hb hgen
    · rw [is_empty_iff] at hb
      rw [hb] at hdat
      cases hdat

theorem delete_of_oob {T : Type} (p : ObjectPool T) (key : PoolKey)
    (h : p.capacity ≤ key.index) :
    p.delete key = p := by
  unfold delete
  rw [if_pos h]

theorem delete_of_dead {T : Type} (p : ObjectPool T) (key : PoolKey)
    (hlt : key.index < p.capacity)
    (hbad : (p.entryAt key.index).generation ≠ key.generation
      ∨ (p.entryAt key.index).data = none) :
    p.delete key = p := by
  unfold delete
  rw [if_neg (Nat.not_le.mpr hlt), if_pos]
  rcases hbad with hb | hb
  · exact Or.inl hb
  · exact Or.inr ((is_empty_iff _).mpr hb)

theorem delete_of_live {T : Type} (p : ObjectPool T) (key : PoolKey) (v : T)
    (hlt : key.index < p.capacity)
    (hgen : (p.entryAt key.index).generation = key.generation)
    (hdat : (p.entryAt key.index).data = some v) :
    p.delete key =
      { count := p.count - 1, next := p.next, free := key.index :: p.free,
        data := p.data.set key.index ⟨(p.entryAt key.index).generation, none⟩ } := by
  unfold delete
  rw [if_neg (Nat.not_le.mpr hlt), if_neg]
  · simp [PoolEntry.clear]
  · rintro (hb | hb)
    · exact hb hgen
    · rw [is_empty_iff] at hb
      rw [hb] at hdat
      cases hdat

theorem entryAt_clear {T : Type} (p : ObjectPool T) (i : Nat) :
    (p.clear).entryAt i = (p.entryAt i).clear := by
  show (p.data.map PoolEntry.clear).getD i (PoolEntry.new T) = _
  have hd : (PoolEntry.new T) = PoolEntry.clear (PoolEntry.new T) := rfl
  rw [hd, getD_map]
  rfl

theorem capacity_clear {T : Type} (p : ObjectPool T) :
    (p.clear).capacity = p.capacity := by
  simp [clear, capacity]

end ObjectPool

end Spool

namespace Spool

namespace ObjectPool

theorem delete_eq_take_fst {T : Type} (p : ObjectPool T) (key : PoolKey) :
    p.delete key = (p.take key).1 := by
  rcases Nat.lt_or_ge key.index p.capacity with hlt | hge
  · by_cases hgen : (p.entryAt key.index).generation = key.generation
    · cases hdat : (p.entryAt key.index).data with
      | none =>
        rw [delete_of_dead p key hlt (Or.inr hdat), take_of_dead p key hlt (Or.inr hdat)]
      | some v =>
        rw [delete_of_live p key v hlt hgen hdat, take_of_live p key v hlt hgen hdat]
    · rw [delete_of_dead p key hlt (Or.inl hgen), take_of_dead p key hlt (Or.inl hgen)]
  · rw [delete_of_oob p key hge, take_of_oob p key hge]

theorem insert_spec {T : Type} {p p' : ObjectPool T} {v : T} {k : PoolKey}
    (h : p.insert v = some (p', k)) :
    k.generation = (p.entryAt k.index).generation + 1 ∧
    p'.data = p.data.set k.index ⟨k.generation, some v⟩ ∧
    p'.count = p.count + 1 ∧
    (p.free = k.index :: p'.free ∧ p'.next = p.next ∨
      p.free = [] ∧ p'.free = [] ∧ k.index = p.next ∧ p'.next = p.next + 1 ∧
        p.next < p.capacity) := by
  cases hf : p.free with
  | cons i rest =>
    rw [insert_of_free_cons p v hf] at h
    simp only [Option.some.injEq, Prod.mk.injEq] at h
    obtain ⟨hp, hk⟩ := h
    subst hp
    subst hk
    exact ⟨rfl, rfl, rfl, Or.inl ⟨rfl, rfl⟩⟩
  | nil =>
    rcases Nat.lt_or_ge p.next p.capacity with hlt | hge
    · rw [insert_of_next_lt p v hf hlt] at h
      simp only [Option.some.injEq, Prod.mk.injEq] at h
      obtain ⟨hp, hk⟩ := h
      subst hp
      subst hk
      exact ⟨rfl, rfl, rfl, Or.inr ⟨rfl, rfl, rfl, rfl, hlt⟩⟩
    · rw [insert_of_full p v hf hge] at h
      cases h

theorem insert_chosen_empty {T : Type} {p p' : ObjectPool T} {v : T} {k : PoolKey}
    (hwf : WF p) (h : p.insert v = some (p', k)) :
    k.index < p.capacity ∧ (p.entryAt k.index).data = none ∧ k.index < p.next ∨
    p.free = [] ∧ k.index = p.next ∧ (p.entryAt k.index).data = none ∧
      p.next < p.capacity := by
  rcases (insert_spec h).2.2.2 with ⟨hfree, _⟩ | ⟨hnil, _, hidx, _, hlt⟩
  · have hmem : k.index ∈ p.free := by rw [hfree]; exact List.mem_cons_self _ _
    have h1 := hwf.free_lt _ hmem
    exact Or.inl ⟨Nat.lt_of_lt_of_le h1 hwf.next_le, hwf.free_empty _ hmem, h1⟩
  · exact Or.inr ⟨hnil, hidx, hidx ▸ hwf.high_empty p.next (Nat.le_refl _), hlt⟩

theorem capacity_insert {T : Type} {p p' : ObjectPool T} {v : T} {k : PoolKey}
    (h : p.insert v = some (p', k)) : p'.capacity = p.capacity := by
  have hd := (insert_spec h).2.1
  show p'.data.length = p.data.length
  rw [hd, List.length_set]

theorem capacity_take {T : Type} (p : ObjectPool T) (key : PoolKey) :
    ((p.take key).1).capacity = p.capacity := by
  rcases Nat.lt_or_ge key.index p.capacity with hlt | hge
  · by_cases hgen : (p.entryAt key.index).generation = key.generation
    · cases hdat : (p.entryAt key.index).data with
      | none => rw [take_of_dead p key hlt (Or.inr hdat)]
      | some v =>
        rw [take_of_live p key v hlt hgen hdat]
        show (p.data.set _ _).length = p.data.length
        rw [List.length_set]
    · rw [take_of_dead p key hlt (Or.inl hgen)]
  · rw [take_of_oob p key hge]

theorem capacity_step {T : Type} (p : ObjectPool T) (op : Op T) :
    (step p op).capacity = p.capacity := by
  cases op with
  | ins v =>
    show capacity (match p.insert v with
      | some (p', _) => p'
      | none => p) = p.capacity
    cases hins : p.insert v with
    | none => rfl
    | some r => exact capacity_insert (by rw [hins])
  | tak k => exact capacity_take p k
  | del k => rw [show step p (Op.del k) = p.delete k from rfl, delete_eq_take_fst]
             exact capacity_take p k
  | clr => exact capacity_clear p

theorem capacity_run {T : Type} (p : ObjectPool T) (ops : List (Op T)) :
    (run p ops).capacity = p.capacity := by
  induction ops generalizing p with
  | nil => rfl
  | cons op ops ih =>
    show (run (step p op) ops).capacity = p.capacity
    rw [ih, capacity_step]

end ObjectPool

end Spool

namespace Spool

namespace ObjectPool

theorem entryAt_new (T : Type) (n i : Nat) : (new T n).entryAt i = PoolEntry.new T := by
  show (List.replicate n (PoolEntry.new T)).getD i (PoolEntry.new T) = PoolEntry.new T
  rcases Nat.lt_or_ge i n with h | h
  · simp [List.getD, List.getElem?_replicate, h]
  · rw [getD_of_len_le]
    simpa using h

theorem WF_new (T : Type) (n : Nat) : WF (new T n) := by
  refine ⟨?_, ?_, ?_, ?_, ?_, ?_⟩
  · show (0 : Nat) ≤ _
    exact Nat.zero_le _
  · intro i hi
    cases hi
  · intro i hi
    cases hi
  · exact List.nodup_nil
  · intro i _
    rw [entryAt_new]
    rfl
  · show (0 : Nat) = (List.replicate n (PoolEntry.new T)).countP _
    rw [eq_comm, List.countP_eq_zero]
    intro e he
    rw [List.eq_of_mem_replicate he]
    simp [PoolEntry.new]

theorem WF_insert {T : Type} {p p' : ObjectPool T} {v : T} {k : PoolKey}
    (hwf : WF p) (h : p.insert v = some (p', k)) : WF p' := by
  obtain ⟨hgen, hdata, hcount, hcase⟩ := insert_spec h
  have hlen : p.capacity = p.data.length := rfl
  have hchosen := insert_chosen_empty hwf h
  have hidx_cap : k.index < p.capacity := by
    rcases hchosen with ⟨h1, _, _⟩ | ⟨_, h2, _, h4⟩
    · exact h1
    · exact h2 ▸ h4
  have hempty : (p.entryAt k.index).data = none := by
    rcases hchosen with ⟨_, h2, _⟩ | ⟨_, _, h3, _⟩
    · exact h2
    · exact h3
  have hcap' : p'.capacity = p.capacity := capacity_insert h
  have hentry_at : ∀ j, p'.entryAt j =
      if k.index = j then ⟨k.generation, some v⟩ else p.entryAt j := by
    intro j
    show p'.data.getD j (PoolEntry.new T) = _
    rw [hdata]
    by_cases hj : k.index = j
    · subst hj
      rw [if_pos rfl, getD_set_self _ _ _ _ (hlen ▸ hidx_cap)]
    · rw [if_neg hj, getD_set_ne _ _ _ hj]
      rfl
  have hcountP : p'.data.countP (fun e => e.data.isSome)
      = p.data.countP (fun e => e.data.isSome) + 1 := by
    have hcs := countP_set (fun e => e.data.isSome) p.data k.index
      ⟨k.generation, some v⟩ (PoolEntry.new T) (hlen ▸ hidx_cap)
    simp only [show p.data.getD k.index (PoolEntry.new T) = p.entryAt k.index from rfl,
      hempty, Option.isSome_none, Option.isSome_some, Bool.false_eq_true, if_false,
      if_true] at hcs
    rw [hdata]
    omega
  rcases hcase with ⟨hfree, hnext⟩ | ⟨hfnil, hfree', hkidx, hnext, hlt⟩
  · -- free-stack reuse path
    have hmem : k.index ∈ p.free := by rw [hfree]; exact List.mem_cons_self _ _
    have hk_next : k.index < p.next := hwf.free_lt _ hmem
    have hnd : (k.index :: p'.free).Nodup := hfree ▸ hwf.free_nodup
    have hnotmem : k.index ∉ p'.free := (List.nodup_cons.mp hnd).1
    refine ⟨?_, ?_, ?_, ?_, ?_, ?_⟩
    · rw [show p'.capacity = p.capacity from hcap'] at *
      exact hnext ▸ hwf.next_le
    · intro j hj
      rw [hnext]
      exact hwf.free_lt j (by rw [hfree]; exact List.mem_cons_of_mem _ hj)
    · intro j hj
      rw [hentry_at, if_neg (fun hji => hnotmem (by rw [hji]; exact hj))]
      exact hwf.free_empty j (by rw [hfree]; exact List.mem_cons_of_mem _ hj)
    · exact (List.nodup_cons.mp hnd).2
    · intro j hj
      rw [hnext] at hj
      rw [hentry_at, if_neg (by omega)]
      exact hwf.high_empty j hj
    · rw [hcount, hcountP, hwf.count_eq]
  · -- high-water path
    refine ⟨?_, ?_, ?_, ?_, ?_, ?_⟩
    · rw [show p'.capacity = p.capacity from hcap', hnext]
      exact hlt
    · intro j hj
      rw [hfree'] at hj
      cases hj
    · intro j hj
      rw [hfree'] at hj
      cases hj
    · rw [hfree']
      exact List.nodup_nil
    · intro j hj
      rw [hnext] at hj
      rw [hentry_at, if_neg (fun hji => by omega)]
      exact hwf.high_empty j (by omega)
    · rw [hcount, hcountP, hwf.count_eq]

end ObjectPool

end Spool

namespace Spool

namespace ObjectPool

theorem WF_take {T : Type} {p : ObjectPool T} (hwf : WF p) (key : PoolKey) :
    WF (p.take key).1 := by
  rcases Nat.lt_or_ge key.index p.capacity with hlt | hge
  · by_cases hgen : (p.entryAt key.index).generation = key.generation
    · cases hdat : (p.entryAt key.index).data with
      | none =>
        rw [take_of_dead p key hlt (Or.inr hdat)]
        exact hwf
      | some v =>
        rw [take_of_live p key v hlt hgen hdat]
        have hlen : p.capacity = p.data.length := rfl
        have hocc : key.index < p.next := by
          by_contra hcon
          have hc := hwf.high_empty key.index (Nat.le_of_not_lt hcon)
          rw [hdat] at hc
          cases hc
        have hnotfree : key.index ∉ p.free := by
          intro hmem
          have hc := hwf.free_empty key.index hmem
          rw [hdat] at hc
          cases hc
        have hentry_at : ∀ j,
            ((p.data.set key.index ⟨(p.entryAt key.index).generation, none⟩).getD j
              (PoolEntry.new T))
            = if key.index = j then ⟨(p.entryAt key.index).generation, none⟩
              else p.entryAt j := by
          intro j
          by_cases hj : key.index = j
          · subst hj
            rw [if_pos rfl, getD_set_self _ _ _ _ (hlen ▸ hlt)]
          · rw [if_neg hj, getD_set_ne _ _ _ hj]
            rfl
        refine ⟨?_, ?_, ?_, ?_, ?_, ?_⟩
        · show p.next ≤ (p.data.set _ _).length
          rw [List.length_set]
          exact hwf.next_le
        · intro j hj
          rcases List.mem_cons.mp hj with rfl | hj
          · exact hocc
          · exact hwf.free_lt j hj
        · intro j hj
          show ((p.data.set _ _).getD j (PoolEntry.new T)).data = none
          rw [hentry_at]
          rcases List.mem_cons.mp hj with rfl | hj
          · rw [if_pos rfl]
          · rw [if_neg (fun hji => hnotfree (by rw [hji]; exact hj))]
            exact hwf.free_empty j hj
        · exact List.nodup_cons.mpr ⟨hnotfree, hwf.free_nodup⟩
        · intro j hj
          have hj' : p.next ≤ j := hj
          show ((p.data.set _ _).getD j (PoolEntry.new T)).data = none
          rw [hentry_at, if_neg (by omega)]
          exact hwf.high_empty j hj'
        · show p.count - 1 = (p.data.set _ _).countP _
          have hcs := countP_set (fun e => e.data.isSome) p.data key.index
            ⟨(p.entryAt key.index).generation, none⟩ (PoolEntry.new T) (hlen ▸ hlt)
          simp only [show p.data.getD key.index (PoolEntry.new T) = p.entryAt key.index
              from rfl, hdat, Option.isSome_none, Option.isSome_some,
            Bool.false_eq_true, if_false, if_true] at hcs
          rw [hwf.count_eq]
          omega
    · rw [take_of_dead p key hlt (Or.inl hgen)]
      exact hwf
  · rw [take_of_oob p key hge]
    exact hwf

theorem WF_clear {T : Type} {p : ObjectPool T} : WF (p.clear) := by
  refine ⟨?_, ?_, ?_, ?_, ?_, ?_⟩
  · exact Nat.zero_le _
  · intro i hi
    cases hi
  · intro i hi
    cases hi
  · exact List.nodup_nil
  · intro i _
    rw [entryAt_clear]
    rfl
  · show (0 : Nat) = (p.data.map PoolEntry.clear).countP _
    rw [eq_comm, List.countP_eq_zero]
    intro e he
    obtain ⟨a, _, rfl⟩ := List.mem_map.mp he
    simp [PoolEntry.clear]

theorem WF_step {T : Type} {p : ObjectPool T} (hwf : WF p) (op : Op T) :
    WF (step p op) := by
  cases op with
  | ins v =>
    show WF (match p.insert v with
      | some (p', _) => p'
      | none => p)
    cases hins : p.insert v with
    | none => exact hwf
    | some r =>
      cases r with
      | mk p' k => exact WF_insert hwf hins
  | tak k => exact WF_take hwf k
  | del k =>
    show WF (p.delete k)
    rw [delete_eq_take_fst]
    exact WF_take hwf k
  | clr => exact WF_clear

theorem WF_run {T : Type} {p : ObjectPool T} (hwf : WF p) (ops : List (Op T)) :
    WF (run p ops) := by
  induction ops generalizing p with
  | nil => exact hwf
  | cons op ops ih => exact ih (WF_step hwf op)

theorem generation_le_take {T : Type} (p : ObjectPool T) (k : PoolKey) (i : Nat) :
    (p.entryAt i).generation ≤ (((p.take k).1).entryAt i).generation := by
  rcases Nat.lt_or_ge k.index p.capacity with hlt | hge
  · by_cases hgen : (p.entryAt k.index).generation = k.generation
    · cases hdat : (p.entryAt k.index).data with
      | none => rw [take_of_dead p k hlt (Or.inr hdat)]
      | some v =>
        rw [take_of_live p k v hlt hgen hdat]
        show _ ≤ ((p.data.set _ _).getD i (PoolEntry.new T)).generation
        by_cases hj : k.index = i
        · subst hj
          rw [getD_set_self _ _ _ _ hlt]
        · rw [getD_set_ne _ _ _ hj]
          exact Nat.le_refl _
    · rw [take_of_dead p k hlt (Or.inl hgen)]
  · rw [take_of_oob p k hge]

theorem generation_le_step {T : Type} (p : ObjectPool T) (op : Op T) (i : Nat) :
    (p.entryAt i).generation ≤ ((step p op).entryAt i).generation := by
  cases op with
  | ins v =>
    show (p.entryAt i).generation ≤ ((match p.insert v with
      | some (p', _) => p'
      | none => p).entryAt i).generation
    cases hins : p.insert v with
    | none => exact Nat.le_refl _
    | some r =>
      cases r with
      | mk p' k =>
        obtain ⟨hgen, hdata, _, _⟩ := insert_spec hins
        show (p.entryAt i).generation ≤ (p'.data.getD i (PoolEntry.new T)).generation
        rw [hdata]
        by_cases hj : k.index = i
        · subst hj
          rcases Nat.lt_or_ge k.index p.data.length with hin | hout
          · rw [getD_set_self _ _ _ _ hin]
            rw [hgen]
            exact Nat.le_succ _
          · rw [List.set_eq_of_length_le hout]
            exact Nat.le_refl _
        · rw [getD_set_ne _ _ _ hj]
          exact Nat.le_refl _
  | tak k => exact generation_le_take p k i
  | del k =>
    show (p.entryAt i).generation ≤ ((p.delete k).entryAt i).generation
    rw [delete_eq_take_fst]
    exact generation_le_take p k i
  | clr =>
    show (p.entryAt i).generation ≤ ((p.clear).entryAt i).generation
    rw [entryAt_clear]
    exact Nat.le_refl _

end ObjectPool

end Spool

namespace Spool

namespace ObjectPool

theorem take_cases {T : Type} (p : ObjectPool T) (k : PoolKey) :
    p.take k = (p, none) ∨
    ∃ v, k.index < p.capacity ∧ (p.entryAt k.index).generation = k.generation ∧
      (p.entryAt k.index).data = some v ∧
      p.take k =
        ({ count := p.count - 1, next := p.next, free := k.index :: p.free,
           data := p.data.set k.index ⟨(p.entryAt k.index).generation, none⟩ },
         some v) := by
  rcases Nat.lt_or_ge k.index p.capacity with hlt | hge
  · by_cases hgen : (p.entryAt k.index).generation = k.generation
    · cases hdat : (p.entryAt k.index).data with
      | none => exact Or.inl (take_of_dead p k hlt (Or.inr hdat))
      | some v =>
        exact Or.inr ⟨v, hlt, hgen, rfl, take_of_live p k v hlt hgen hdat⟩
    · exact Or.inl (take_of_dead p k hlt (Or.inl hgen))
  · exact Or.inl (take_of_oob p k hge)

theorem take_next {T : Type} (p : ObjectPool T) (k : PoolKey) :
    ((p.take k).1).next = p.next := by
  rcases take_cases p k with hc | ⟨v, _, _, _, hc⟩ <;> rw [hc]

theorem take_generation {T : Type} (p : ObjectPool T) (k : PoolKey) (i : Nat) :
    (((p.take k).1).entryAt i).generation = (p.entryAt i).generation := by
  rcases take_cases p k with hc | ⟨v, hlt, _, _, hc⟩
  · rw [hc]
  · rw [hc]
    show ((p.data.set _ _).getD i (PoolEntry.new T)).generation = _
    by_cases hj : k.index = i
    · subst hj
      rw [getD_set_self _ _ _ _ hlt]
    · rw [getD_set_ne _ _ _ hj]
      rfl

theorem dead_spec {T : Type} (p : ObjectPool T) (h : PoolKey)
    (hbad : p.capacity ≤ h.index ∨
      (p.entryAt h.index).generation ≠ h.generation ∨
      (p.entryAt h.index).data = none) :
    p.get h = none ∧ p.get_mut h = none ∧ p.take h = (p, none) ∧ p.delete h = p := by
  rcases Nat.lt_or_ge h.index p.capacity with hlt | hge
  · have hbad' : (p.entryAt h.index).generation ≠ h.generation ∨
        (p.entryAt h.index).data = none := by
      rcases hbad with hb | hb
      · omega
      · exact hb
    refine ⟨?_, ?_, take_of_dead p h hlt hbad', ?_⟩
    · unfold get
      rw [if_neg (Nat.not_le.mpr hlt)]
      rcases hbad' with hb | hb
      · rw [if_pos hb]
      · by_cases hgen : (p.entryAt h.index).generation ≠ h.generation
        · rw [if_pos hgen]
        · rw [if_neg hgen]
          exact hb
    · unfold get_mut
      rw [if_neg (Nat.not_le.mpr hlt)]
      rcases hbad' with hb | hb
      · rw [if_pos hb]
      · by_cases hgen : (p.entryAt h.index).generation ≠ h.generation
        · rw [if_pos hgen]
        · rw [if_neg hgen]
          exact hb
    · rw [delete_eq_take_fst, take_of_dead p h hlt hbad']
  · refine ⟨?_, ?_, take_of_oob p h hge, ?_⟩
    · unfold get
      rw [if_pos hge]
    · unfold get_mut
      rw [if_pos hge]
    · exact delete_of_oob p h hge

theorem invalidated_dead {T : Type} {p : ObjectPool T} {h : PoolKey}
    (hi : Invalidated p h) :
    (p.entryAt h.index).generation ≠ h.generation ∨
      (p.entryAt h.index).data = none := by
  rcases hi.2 with hc | ⟨_, hc⟩
  · exact Or.inl (by omega)
  · exact Or.inr hc

end ObjectPool

end Spool

namespace Spool

namespace ObjectPool

theorem step_ins_eq {T : Type} {p p' : ObjectPool T} {v : T} {k : PoolKey}
    (hins : p.insert v = some (p', k)) : step p (Op.ins v) = p' := by
  show (match p.insert v with
    | some (p', _) => p'
    | none => p) = p'
  rw [hins]

theorem step_ins_none {T : Type} {p : ObjectPool T} {v : T}
    (hins : p.insert v = none) : step p (Op.ins v) = p := by
  show (match p.insert v with
    | some (p', _) => p'
    | none => p) = p
  rw [hins]

theorem entryAt_insert_self {T : Type} {p p' : ObjectPool T} {v : T} {k : PoolKey}
    (hins : p.insert v = some (p', k)) (hin : k.index < p.capacity) :
    p'.entryAt k.index = ⟨k.generation, some v⟩ := by
  obtain ⟨_, hdata, _, _⟩ := insert_spec hins
  show p'.data.getD k.index (PoolEntry.new T) = _
  rw [hdata, getD_set_self _ _ _ _ hin]

theorem entryAt_insert_ne {T : Type} {p p' : ObjectPool T} {v : T} {k : PoolKey}
    (hins : p.insert v = some (p', k)) (j : Nat) (hj : k.index ≠ j) :
    p'.entryAt j = p.entryAt j := by
  obtain ⟨_, hdata, _, _⟩ := insert_spec hins
  show p'.data.getD j (PoolEntry.new T) = _
  rw [hdata, getD_set_ne _ _ _ hj]
  rfl

theorem entryAt_take_self {T : Type} {p : ObjectPool T} {k : PoolKey} {v : T}
    (hlt : k.index < p.capacity)
    (hgen : (p.entryAt k.index).generation = k.generation)
    (hdat : (p.entryAt k.index).data = some v) :
    ((p.take k).1).entryAt k.index = ⟨(p.entryAt k.index).generation, none⟩ := by
  rw [take_of_live p k v hlt hgen hdat]
  show (p.data.set _ _).getD k.index (PoolEntry.new T) = _
  rw [getD_set_self _ _ _ _ hlt]

theorem entryAt_take_ne {T : Type} (p : ObjectPool T) (k : PoolKey) (j : Nat)
    (hj : k.index ≠ j) :
    ((p.take k).1).entryAt j = p.entryAt j := by
  rcases take_cases p k with hc | ⟨v, hlt, hkgen, hkdat, hc⟩
  · rw [hc]
  · rw [hc]
    show (p.data.set _ _).getD j (PoolEntry.new T) = _
    rw [getD_set_ne _ _ _ hj]
    rfl

theorem invalidated_insert {T : Type} {p p' : ObjectPool T} {h : PoolKey} {v : T}
    {k : PoolKey} (hi : Invalidated p h) (hins : p.insert v = some (p', k)) :
    Invalidated p' h := by
  obtain ⟨hcap, hrest⟩ := hi
  obtain ⟨hgen, _, _, _⟩ := insert_spec hins
  refine ⟨by rw [capacity_insert hins]; exact hcap, ?_⟩
  by_cases hj : k.index = h.index
  · have hin : k.index < p.capacity := by rw [hj]; exact hcap
    rw [← hj, entryAt_insert_self hins hin]
    have e1 : (p.entryAt k.index).generation = (p.entryAt h.index).generation := by
      rw [hj]
    rcases hrest with hc | ⟨hc, _⟩
    · exact Or.inl (by simp only []; omega)
    · exact Or.inl (by simp only []; omega)
  · rw [entryAt_insert_ne hins h.index hj]
    exact hrest

theorem invalidated_take {T : Type} {p : ObjectPool T} {h : PoolKey}
    (hi : Invalidated p h) (k : PoolKey) : Invalidated ((p.take k).1) h := by
  obtain ⟨hcap, hrest⟩ := hi
  refine ⟨by rw [capacity_take]; exact hcap, ?_⟩
  by_cases hj : k.index = h.index
  · rcases take_cases p k with hc | ⟨v, hlt, hkgen, hkdat, hc⟩
    · rw [hc]
      exact hrest
    · rw [← hj, entryAt_take_self hlt hkgen hkdat]
      have e1 : (p.entryAt k.index).generation = (p.entryAt h.index).generation := by
        rw [hj]
      rcases hrest with hcc | ⟨hcc, hdd⟩
      · exact Or.inl (by simp only []; omega)
      · rw [hj, hdd] at hkdat
        cases hkdat
  · rw [entryAt_take_ne p k h.index hj]
    exact hrest

theorem invalidated_clear {T : Type} {p : ObjectPool T} {h : PoolKey}
    (hi : Invalidated p h) : Invalidated (p.clear) h := by
  obtain ⟨hcap, hrest⟩ := hi
  refine ⟨by rw [capacity_clear]; exact hcap, ?_⟩
  rw [entryAt_clear]
  rcases hrest with hc | ⟨hc, _⟩
  · exact Or.inl hc
  · exact Or.inr ⟨hc, rfl⟩

theorem invalidated_step {T : Type} {p : ObjectPool T} {h : PoolKey}
    (hi : Invalidated p h) (op : Op T) : Invalidated (step p op) h := by
  cases op with
  | ins v =>
    cases hins : p.insert v with
    | none => rw [step_ins_none hins]; exact hi
    | some r =>
      cases r with
      | mk p' k =>
        rw [step_ins_eq hins]
        exact invalidated_insert hi hins
  | tak k => exact invalidated_take hi k
  | del k =>
    show Invalidated (p.delete k) h
    rw [delete_eq_take_fst]
    exact invalidated_take hi k
  | clr => exact invalidated_clear hi

theorem invalidated_run {T : Type} {p : ObjectPool T} {h : PoolKey}
    (hi : Invalidated p h) (ops : List (Op T)) : Invalidated (run p ops) h := by
  induction ops generalizing p with
  | nil => exact hi
  | cons op ops ih => exact ih (invalidated_step hi op)

theorem invalidated_spec {T : Type} {p : ObjectPool T} {h : PoolKey}
    (hi : Invalidated p h) :
    p.get h = none ∧ p.get_mut h = none ∧ p.take h = (p, none) ∧ p.delete h = p :=
  dead_spec p h (Or.inr (invalidated_dead hi))

end ObjectPool

end Spool

namespace Spool

theorem poolKey_eq {a b : PoolKey} (h1 : a.index = b.index)
    (h2 : a.generation = b.generation) : a = b := by
  cases a
  cases b
  simp_all

namespace ObjectPool

theorem get_of_live {T : Type} {p : ObjectPool T} {h : PoolKey} {v : T}
    (hl : Live p h v) : p.get h = some v := by
  obtain ⟨hlt, hgen, hdat⟩ := hl
  unfold get
  rw [if_neg (Nat.not_le.mpr hlt), if_neg (fun hne => hne hgen)]
  exact hdat

theorem insert_chosen_lt {T : Type} {p p' : ObjectPool T} {v : T} {k : PoolKey}
    (hwf : WF p) (hins : p.insert v = some (p', k)) : k.index < p.capacity := by
  rcases insert_chosen_empty hwf hins with ⟨h1, _, _⟩ | ⟨_, h2, _, h4⟩
  · exact h1
  · exact h2 ▸ h4

theorem insert_chosen_none {T : Type} {p p' : ObjectPool T} {v : T} {k : PoolKey}
    (hwf : WF p) (hins : p.insert v = some (p', k)) :
    (p.entryAt k.index).data = none := by
  rcases insert_chosen_empty hwf hins with ⟨_, h2, _⟩ | ⟨_, _, h3, _⟩
  · exact h2
  · exact h3

theorem live_of_insert {T : Type} {p p' : ObjectPool T} {v : T} {k : PoolKey}
    (hwf : WF p) (hins : p.insert v = some (p', k)) : Live p' k v := by
  have hin := insert_chosen_lt hwf hins
  refine ⟨by rw [capacity_insert hins]; exact hin, ?_, ?_⟩
  · rw [entryAt_insert_self hins hin]
  · rw [entryAt_insert_self hins hin]

theorem live_insert {T : Type} {p p' : ObjectPool T} {h : PoolKey} {v w : T}
    {k : PoolKey} (hwf : WF p) (hl : Live p h v) (hins : p.insert w = some (p', k)) :
    Live p' h v := by
  obtain ⟨hlt, hgen, hdat⟩ := hl
  have hne : k.index ≠ h.index := by
    intro he
    have hemp := insert_chosen_none hwf hins
    rw [he, hdat] at hemp
    cases hemp
  refine ⟨by rw [capacity_insert hins]; exact hlt, ?_, ?_⟩
  · rw [entryAt_insert_ne hins h.index hne]
    exact hgen
  · rw [entryAt_insert_ne hins h.index hne]
    exact hdat

theorem live_take {T : Type} {p : ObjectPool T} {h : PoolKey} {v : T}
    (hl : Live p h v) {k : PoolKey} (hk : k ≠ h) : Live ((p.take k).1) h v := by
  obtain ⟨hlt, hgen, hdat⟩ := hl
  by_cases hj : k.index = h.index
  · rcases take_cases p k with hc | ⟨w, hlt2, hkgen, hkdat, hc⟩
    · rw [hc]
      exact ⟨hlt, hgen, hdat⟩
    · exact absurd (poolKey_eq hj (by rw [← hkgen, hj, hgen])) hk
  · refine ⟨by rw [capacity_take]; exact hlt, ?_, ?_⟩
    · rw [entryAt_take_ne p k h.index hj]
      exact hgen
    · rw [entryAt_take_ne p k h.index hj]
      exact hdat

theorem live_step {T : Type} {p : ObjectPool T} {h : PoolKey} {v : T}
    (hwf : WF p) (hl : Live p h v) {op : Op T}
    (hop : op ≠ Op.del h ∧ op ≠ Op.tak h ∧ op ≠ Op.clr) : Live (step p op) h v := by
  cases op with
  | ins w =>
    cases hins : p.insert w with
    | none =>
      rw [step_ins_none hins]
      exact hl
    | some r =>
      cases r with
      | mk p' k =>
        rw [step_ins_eq hins]
        exact live_insert hwf hl hins
  | tak k =>
    have hk : k ≠ h := fun he => hop.2.1 (by rw [he])
    exact live_take hl hk
  | del k =>
    have hk : k ≠ h := fun he => hop.1 (by rw [he])
    show Live (p.delete k) h v
    rw [delete_eq_take_fst]
    exact live_take hl hk
  | clr => exact absurd rfl hop.2.2

theorem live_run {T : Type} {p : ObjectPool T} {h : PoolKey} {v : T}
    (hwf : WF p) (hl : Live p h v) (ops : List (Op T))
    (hops : ∀ op ∈ ops, op ≠ Op.del h ∧ op ≠ Op.tak h ∧ op ≠ Op.clr) :
    Live (run p ops) h v := by
  induction ops generalizing p with
  | nil => exact hl
  | cons op ops ih =>
    exact ih (WF_step hwf op)
      (live_step hwf hl (hops op (List.mem_cons_self _ _)))
      (fun o ho => hops o (List.mem_cons_of_mem _ ho))

theorem freshHigh_new (T : Type) (n : Nat) : FreshHigh (new T n) := by
  intro i _
  rw [entryAt_new]
  rfl

theorem freshHigh_insert {T : Type} {p p' : ObjectPool T} {v : T} {k : PoolKey}
    (hwf : WF p) (hf : FreshHigh p) (hins : p.insert v = some (p', k)) :
    FreshHigh p' := by
  intro i hi
  rcases (insert_spec hins).2.2.2 with ⟨hfree, hnext⟩ | ⟨_, _, hkidx, hnext, hlt⟩
  · have hkn : k.index < p.next :=
      hwf.free_lt _ (by rw [hfree]; exact List.mem_cons_self _ _)
    rw [hnext] at hi
    rw [entryAt_insert_ne hins i (by omega)]
    exact hf i hi
  · rw [hnext] at hi
    rw [entryAt_insert_ne hins i (by omega)]
    exact hf i (by omega)

theorem freshHigh_take {T : Type} {p : ObjectPool T} (hf : FreshHigh p)
    (k : PoolKey) : FreshHigh ((p.take k).1) := by
  intro i hi
  rw [take_generation]
  rw [take_next] at hi
  exact hf i hi

theorem freshHigh_step {T : Type} {p : ObjectPool T} (hwf : WF p)
    (hf : FreshHigh p) {op : Op T} (hop : op ≠ Op.clr) : FreshHigh (step p op) := by
  cases op with
  | ins v =>
    cases hins : p.insert v with
    | none =>
      rw [step_ins_none hins]
      exact hf
    | some r =>
      cases r with
      | mk p' k =>
        rw [step_ins_eq hins]
        exact freshHigh_insert hwf hf hins
  | tak k => exact freshHigh_take hf k
  | del k =>
    show FreshHigh (p.delete k)
    rw [delete_eq_take_fst]
    exact freshHigh_take hf k
  | clr => exact absurd rfl hop

theorem freshHigh_run {T : Type} {p : ObjectPool T} (hwf : WF p)
    (hf : FreshHigh p) (ops : List (Op T)) (hops : Op.clr ∉ ops) :
    FreshHigh (run p ops) := by
  induction ops generalizing p with
  | nil => exact hf
  | cons op ops ih =>
    exact ih (WF_step hwf op)
      (freshHigh_step hwf hf (fun he => hops (he ▸ List.mem_cons_self _ _)))
      (fun hmem => hops (List.mem_cons_of_mem _ hmem))

theorem capacity_new (T : Type) (n : Nat) : (new T n).capacity = n := by
  show (List.replicate n (PoolEntry.new T)).length = n
  rw [List.length_replicate]

theorem iter_spec {T : Type} (p : ObjectPool T) (hwf : WF p) :
    p.iter = (List.range p.capacity).filterMap (fun i => (p.entryAt i).data) ∧
      p.iter.length = p.count := by
  constructor
  · exact filterMap_eq_range_getD PoolEntry.get (PoolEntry.new T) p.data
  · show (p.data.filterMap PoolEntry.get).length = p.count
    rw [length_filterMap_eq_countP, hwf.count_eq]
    rfl

end ObjectPool

end Spool

namespace Spool

namespace ObjectPool

theorem emitInv_insert {T : Type} {p p' : ObjectPool T} {v : T} {k : PoolKey}
    {ks : List PoolKey} (hwf : WF p) (hinv : EmitInv (p, ks))
    (hins : p.insert v = some (p', k)) : EmitInv (p', ks ++ [k]) := by
  obtain ⟨hnd0, hmem0⟩ := hinv
  have hnd : ks.Nodup := hnd0
  have hmem : ∀ k' ∈ ks, k'.index < p.capacity ∧
      k'.generation ≤ (p.entryAt k'.index).generation := hmem0
  have hgen := (insert_spec hins).1
  have hin := insert_chosen_lt hwf hins
  have hknotin : k ∉ ks := by
    intro hk
    have h2 := (hmem k hk).2
    omega
  refine ⟨?_, ?_⟩
  · show (ks ++ [k]).Nodup
    rw [List.nodup_append]
    exact ⟨hnd, List.nodup_singleton k,
      fun a ha hb => hknotin ((List.mem_singleton.mp hb) ▸ ha)⟩
  · intro k' hk'
    show k'.index < p'.capacity ∧ k'.generation ≤ (p'.entryAt k'.index).generation
    rcases List.mem_append.mp hk' with hk' | hk'
    · have hold := hmem k' hk'
      refine ⟨by rw [capacity_insert hins]; exact hold.1, ?_⟩
      by_cases hj : k.index = k'.index
      · rw [← hj, entryAt_insert_self hins hin]
        have h2 := hold.2
        rw [← hj] at h2
        show k'.generation ≤ k.generation
        omega
      · rw [entryAt_insert_ne hins k'.index hj]
        exact hold.2
    · rw [List.mem_singleton] at hk'
      subst hk'
      refine ⟨by rw [capacity_insert hins]; exact hin, ?_⟩
      rw [entryAt_insert_self hins hin]

theorem stepEmit_fst {T : Type} (s : ObjectPool T × List PoolKey) (op : Op T) :
    (stepEmit s op).1 = step s.1 op := by
  cases op with
  | ins v =>
    cases hins : s.1.insert v with
    | none =>
      show (match s.1.insert v with
        | some (p', k) => (p', s.2 ++ [k])
        | none => s).1 = _
      rw [hins, step_ins_none hins]
    | some r =>
      cases r with
      | mk p' k =>
        show (match s.1.insert v with
          | some (p', k) => (p', s.2 ++ [k])
          | none => s).1 = _
        rw [hins, step_ins_eq hins]
  | tak k => rfl
  | del k => rfl
  | clr => rfl

theorem emitInv_stepEmit {T : Type} {s : ObjectPool T × List PoolKey}
    (hwf : WF s.1) (hinv : EmitInv s) (op : Op T) : EmitInv (stepEmit s op) := by
  obtain ⟨p, ks⟩ := s
  cases op with
  | ins v =>
    cases hins : p.insert v with
    | none =>
      show EmitInv (match p.insert v with
        | some (p', k) => (p', ks ++ [k])
        | none => (p, ks))
      rw [hins]
      exact hinv
    | some r =>
      cases r with
      | mk p' k =>
        show EmitInv (match p.insert v with
          | some (p', k) => (p', ks ++ [k])
          | none => (p, ks))
        rw [hins]
        exact emitInv_insert hwf hinv hins
  | tak k =>
    obtain ⟨hnd, hmem⟩ := hinv
    refine ⟨hnd, fun k' hk' => ?_⟩
    have hold := hmem k' hk'
    refine ⟨by rw [show (stepEmit (p, ks) (Op.tak k)).1 = step p (Op.tak k) from rfl,
      capacity_step]; exact hold.1, ?_⟩
    exact Nat.le_trans hold.2 (generation_le_step p (Op.tak k) k'.index)
  | del k =>
    obtain ⟨hnd, hmem⟩ := hinv
    refine ⟨hnd, fun k' hk' => ?_⟩
    have hold := hmem k' hk'
    refine ⟨by rw [show (stepEmit (p, ks) (Op.del k)).1 = step p (Op.del k) from rfl,
      capacity_step]; exact hold.1, ?_⟩
    exact Nat.le_trans hold.2 (generation_le_step p (Op.del k) k'.index)
  | clr =>
    obtain ⟨hnd, hmem⟩ := hinv
    refine ⟨hnd, fun k' hk' => ?_⟩
    have hold := hmem k' hk'
    refine ⟨by rw [show (stepEmit (p, ks) Op.clr).1 = step p Op.clr from rfl,
      capacity_step]; exact hold.1, ?_⟩
    exact Nat.le_trans hold.2 (generation_le_step p Op.clr k'.index)

theorem emitInv_foldl {T : Type} (s : ObjectPool T × List PoolKey)
    (hwf : WF s.1) (hinv : EmitInv s) (ops : List (Op T)) :
    EmitInv (ops.foldl stepEmit s) := by
  induction ops generalizing s with
  | nil => exact hinv
  | cons op ops ih =>
    refine ih (stepEmit s op) ?_ (emitInv_stepEmit hwf hinv op)
    rw [stepEmit_fst]
    exact WF_step hwf op

end ObjectPool

end Spool

namespace Spool

open ObjectPool

/-- C1: for every handle `h` accepted by a successful `delete(h)` or `take(h)`,
in every state reachable from there by further public operations, `get(h)` and
`get_mut(h)` return none, `take(h)` returns none and leaves the pool unchanged,
and `delete(h)` is a no-op. -/
theorem claim_C1 {T : Type} (p : ObjectPool T) (h : PoolKey) (v : T)
    (hlt : h.index < p.capacity)
    (hgen : (p.entryAt h.index).generation = h.generation)
    (hdat : (p.entryAt h.index).data = some v)
    (w : List (Op T)) :
    ((run (p.delete h) w).get h = none ∧
      (run (p.delete h) w).get_mut h = none ∧
      (run (p.delete h) w).take h = (run (p.delete h) w, none) ∧
      (run (p.delete h) w).delete h = run (p.delete h) w) ∧
    ((run ((p.take h).1) w).get h = none ∧
      (run ((p.take h).1) w).get_mut h = none ∧
      (run ((p.take h).1) w).take h = (run ((p.take h).1) w, none) ∧
      (run ((p.take h).1) w).delete h = run ((p.take h).1) w) := by
  have hitak : Invalidated ((p.take h).1) h := by
    refine ⟨by rw [capacity_take]; exact hlt, Or.inr ⟨?_, ?_⟩⟩
    · rw [entryAt_take_self hlt hgen hdat]
      exact hgen
    · rw [entryAt_take_self hlt hgen hdat]
  have hidel : Invalidated (p.delete h) h := by
    rw [delete_eq_take_fst]
    exact hitak
  exact ⟨invalidated_spec (invalidated_run hidel w),
    invalidated_spec (invalidated_run hitak w)⟩

theorem claim_C1_witness :
    (run ((run (new Nat 1) [Op.ins 5]).delete ⟨0, 1⟩) [Op.ins 7]).get ⟨0, 1⟩
      = none :=
  (claim_C1 (run (new Nat 1) [Op.ins 5]) ⟨0, 1⟩ 5 (by decide) (by decide)
    (by decide) [Op.ins 7]).1.1

/-- C2: `insert` selects its slot by popping the top of the free stack if it
is non-empty, else by using `next` (incrementing it) while `next < capacity`,
and otherwise fails (capacity exhausted, a panic in the source). -/
theorem claim_C2 {T : Type} (p : ObjectPool T) (v : T) :
    (∀ i rest, p.free = i :: rest →
      ∃ p', p.insert v = some (p', ⟨i, (p.entryAt i).generation + 1⟩) ∧
        p'.free = rest ∧ p'.next = p.next) ∧
    (p.free = [] → p.next < p.capacity →
      ∃ p', p.insert v = some (p', ⟨p.next, (p.entryAt p.next).generation + 1⟩) ∧
        p'.next = p.next + 1) ∧
    (p.free = [] → p.capacity ≤ p.next → p.insert v = none) := by
  refine ⟨?_, ?_, ?_⟩
  · intro i rest hf
    exact ⟨_, insert_of_free_cons p v hf, rfl, rfl⟩
  · intro hf hlt
    exact ⟨_, insert_of_next_lt p v hf hlt, rfl⟩
  · intro hf hge
    exact insert_of_full p v hf hge

theorem claim_C2_witness :
    (∃ p', (run (new Nat 2) [Op.ins 9, Op.del ⟨0, 1⟩]).insert 5
        = some (p', ⟨0, 2⟩) ∧ p'.free = [] ∧ p'.next = 1) ∧
    (∃ p', (run (new Nat 2) [Op.ins 9]).insert 5 = some (p', ⟨1, 1⟩) ∧
      p'.next = 2) ∧
    (run (new Nat 1) [Op.ins 9]).insert 5 = none :=
  ⟨(claim_C2 (run (new Nat 2) [Op.ins 9, Op.del ⟨0, 1⟩]) 5).1 0 [] (by decide),
   (claim_C2 (run (new Nat 2) [Op.ins 9]) 5).2.1 (by decide) (by decide),
   (claim_C2 (run (new Nat 1) [Op.ins 9]) 5).2.2 (by decide) (by decide)⟩

/-- C3: a handle returned by a successful insert keeps addressing the inserted
value under any further public operations that avoid delete(h), take(h) and
clear(). -/
theorem claim_C3 {T : Type} (p p' : ObjectPool T) (v : T) (k : PoolKey)
    (hwf : WF p) (hins : p.insert v = some (p', k)) (w : List (Op T))
    (hw : ∀ op ∈ w, op ≠ Op.del k ∧ op ≠ Op.tak k ∧ op ≠ Op.clr) :
    (run p' w).get k = some v :=
  get_of_live (live_run (WF_insert hwf hins) (live_of_insert hwf hins) w hw)

theorem claim_C3_witness :
    (run (run (new Nat 2) [Op.ins 5]) [Op.ins 7]).get ⟨0, 1⟩ = some 5 :=
  claim_C3 (new Nat 2) (run (new Nat 2) [Op.ins 5]) 5 ⟨0, 1⟩ (WF_new Nat 2)
    (by decide) [Op.ins 7] (by decide)

/-- C4, counterexample: after `insert 100` then `clear` on a pool of capacity
1, slot 0 has index ≥ next (next = 0) but generation 1, not 0 — `clear` resets
`next` without resetting generations. -/
theorem claim_C4_counterexample :
    ¬ (∀ i, (run (new Nat 1) [Op.ins 100, Op.clr]).next ≤ i →
        i < (run (new Nat 1) [Op.ins 100, Op.clr]).capacity →
        ((run (new Nat 1) [Op.ins 100, Op.clr]).entryAt i).data = none ∧
          ((run (new Nat 1) [Op.ins 100, Op.clr]).entryAt i).generation = 0) := by
  intro hcon
  exact absurd ((hcon 0 (by decide) (by decide)).2) (by decide)

/-- C4 (amended): in every reachable state, every slot with index ≥ next is
empty; if additionally no clear() has been performed, it also has
generation 0. -/
theorem claim_C4 {T : Type} (n : Nat) (ops : List (Op T)) :
    (∀ i, (run (new T n) ops).next ≤ i →
      ((run (new T n) ops).entryAt i).data = none) ∧
    (Op.clr ∉ ops → ∀ i, (run (new T n) ops).next ≤ i →
      ((run (new T n) ops).entryAt i).generation = 0) := by
  constructor
  · exact (WF_run (WF_new T n) ops).high_empty
  · intro hclr
    exact freshHigh_run (WF_new T n) (freshHigh_new T n) ops hclr

theorem claim_C4_witness :
    ((run (new Nat 2) [Op.ins 5]).entryAt 1).data = none ∧
      ((run (new Nat 2) [Op.ins 5]).entryAt 1).generation = 0 :=
  ⟨(claim_C4 2 [Op.ins 5]).1 1 (by decide),
   (claim_C4 2 [Op.ins 5]).2 (by decide) 1 (by decide)⟩

/-- C5: a handle that is out of range, stale, or addresses an empty slot makes
get and get_mut return none, take return none with the pool unchanged, and
delete return with the pool unchanged. -/
theorem claim_C5 {T : Type} (p : ObjectPool T) (h : PoolKey)
    (hbad : p.capacity ≤ h.index ∨
      (p.entryAt h.index).generation ≠ h.generation ∨
      (p.entryAt h.index).data = none) :
    p.get h = none ∧ p.get_mut h = none ∧ p.take h = (p, none) ∧
      p.delete h = p :=
  dead_spec p h hbad

theorem claim_C5_witness :
    (run (new Nat 1) [Op.ins 5]).get ⟨0, 42⟩ = none ∧
    (run (new Nat 1) [Op.ins 5]).get_mut ⟨0, 42⟩ = none ∧
    (run (new Nat 1) [Op.ins 5]).take ⟨0, 42⟩ = (run (new Nat 1) [Op.ins 5], none) ∧
    (run (new Nat 1) [Op.ins 5]).delete ⟨0, 42⟩ = run (new Nat 1) [Op.ins 5] :=
  claim_C5 (run (new Nat 1) [Op.ins 5]) ⟨0, 42⟩ (Or.inr (Or.inl (by decide)))

/-- C6: along any sequence of public operations, the handles returned by the
successful insertions are pairwise distinct. -/
theorem claim_C6 (T : Type) (n : Nat) (ops : List (Op T)) :
    ((runEmit (new T n) ops).2).Nodup :=
  (emitInv_foldl (new T n, []) (WF_new T n)
    ⟨List.nodup_nil, fun k hk => absurd hk (List.not_mem_nil k)⟩ ops).1

/-- C7: capacity returns the construction capacity, in the initial state and
after every sequence of public operations. -/
theorem claim_C7 (T : Type) (n : Nat) (ops : List (Op T)) :
    (run (new T n) ops).capacity = n := by
  rw [capacity_run, capacity_new]

/-- C8: in every reachable state, iter yields exactly the values of the
occupied slots in ascending index order (each exactly once, skipping the empty
slots), and its length equals count. -/
theorem claim_C8 (T : Type) (n : Nat) (ops : List (Op T)) :
    (run (new T n) ops).iter =
      (List.range ((run (new T n) ops).capacity)).filterMap
        (fun i => ((run (new T n) ops).entryAt i).data) ∧
    ((run (new T n) ops).iter).length = (run (new T n) ops).count :=
  iter_spec (run (new T n) ops) (WF_run (WF_new T n) ops)

/-- C9: delete(h) produces exactly the pool state of take(h) with the returned
value discarded, for every pool state and every handle. -/
theorem claim_C9 {T : Type} (p : ObjectPool T) (key : PoolKey) :
    p.delete key = (p.take key).1 :=
  delete_eq_take_fst p key

/-- C10: when take(h) succeeds (and hence when delete(h) removes a value),
every other slot is unchanged, the generation of slot h.index is unchanged,
and next is unchanged; only that slot's occupancy, count and the free stack
change. -/
theorem claim_C10 {T : Type} (p : ObjectPool T) (k : PoolKey)
    (hsome : ((p.take k).2).isSome = true) :
    ((p.take k).1).next = p.next ∧
    ((p.take k).1).capacity = p.capacity ∧
    (∀ j, j ≠ k.index → ((p.take k).1).entryAt j = p.entryAt j) ∧
    (((p.take k).1).entryAt k.index).generation
      = (p.entryAt k.index).generation ∧
    (((p.take k).1).entryAt k.index).data = none ∧
    ((p.take k).1).count = p.count - 1 ∧
    ((p.take k).1).free = k.index :: p.free ∧
    p.delete k = (p.take k).1 := by
  rcases take_cases p k with hc | ⟨v, hlt, hgen, hdat, hc⟩
  · rw [hc] at hsome
    cases hsome
  · refine ⟨take_next p k, capacity_take p k, ?_, take_generation p k k.index,
      ?_, ?_, ?_, delete_eq_take_fst p k⟩
    · intro j hj
      exact entryAt_take_ne p k j (fun he => hj he.symm)
    · rw [entryAt_take_self hlt hgen hdat]
    · rw [hc]
    · rw [hc]

theorem claim_C10_witness :
    (((run (new Nat 1) [Op.ins 5]).take ⟨0, 1⟩).1.entryAt 0).generation
      = ((run (new Nat 1) [Op.ins 5]).entryAt 0).generation :=
  (claim_C10 (run (new Nat 1) [Op.ins 5]) ⟨0, 1⟩ (by decide)).2.2.2.1

end Spool
